import Mathlib

/-!
# Verification of the ZeroFox quick-scan engine (`zerofox_v2.py`)

A shallow embedding of the two-stage probing engine described in the
specification, translated from `src/zerofox_v2.py`.  Python strings are
modelled as Lean `String`/`List Char` (the programs involved only handle
ASCII payloads and URLs, which this embedding is faithful for), the network
is modelled as an oracle mapping a request URL to an outcome, the
filesystem as a map from paths to abstract content entries, and the
asyncio semaphore as a small-step transition system.

Helpers that the script calls but that are not part of the file
(`inject_payload`, `HostRateLimiter`, `GlobalRateLimiter`,
`safe_name_for_file`, `ensure_dir`) are modelled from the specification's
description and carry a doc comment saying so.
-/

/-- Hexadecimal value of a character, as in Python `urllib.parse.unquote`
(`0`-`9`, `a`-`f`, `A`-`F`). -/
def hexVal (c : Char) : Option Nat :=
  if '0' ≤ c ∧ c ≤ '9' then some (c.toNat - 48)
  else if 'a' ≤ c ∧ c ≤ 'f' then some (c.toNat - 87)
  else if 'A' ≤ c ∧ c ≤ 'F' then some (c.toNat - 55)
  else none

/-- Percent-decoding over a character list: `%XY` with two hex digits becomes
the character with code `16*X + Y`, anything else is copied verbatim
(Python `urllib.parse.unquote` restricted to single-byte characters, which
is faithful on ASCII input). -/
def pctDecodeList : List Char → List Char
  | [] => []
  | '%' :: a :: b :: rest2 =>
    match hexVal a, hexVal b with
    | some x, some y => Char.ofNat (16 * x + y) :: pctDecodeList rest2
    | _, _ => '%' :: pctDecodeList (a :: b :: rest2)
  | c :: rest => c :: pctDecodeList rest

/-- `str.replace('+', ' ')`, the first step of Python `unquote_plus`. -/
def plusToSpace (s : String) : String :=
  String.mk (s.toList.map (fun c => if c = '+' then ' ' else c))

/-- Python `urllib.parse.unquote_plus`: replace every `+` by a space, then
percent-decode.  Used by `test_payloads_on_url` (src line 515). -/
def unquote_plus (s : String) : String :=
  String.mk (pctDecodeList (plusToSpace s).toList)

/-- The percent-decoded form of a string, with no special treatment of `+`
(plain `urllib.parse.unquote`).  This is the reading of "percent-decoded
form" used by the specification's description of `reflects`. -/
def pctDecodeOnly (s : String) : String :=
  String.mk (pctDecodeList s.toList)

/-- `needle` is a prefix of `hay` (character lists). -/
def startsWithL : List Char → List Char → Bool
  | [], _ => true
  | _ :: _, [] => false
  | a :: as, b :: bs => a = b && startsWithL as bs

/-- `needle` occurs as a contiguous substring of `hay`; Python `needle in hay`
on strings. -/
def substrL (needle : List Char) : List Char → Bool
  | [] => startsWithL needle []
  | c :: t => startsWithL needle (c :: t) || substrL needle t

/-- Python `p in text` for strings. -/
def strContains (text p : String) : Bool :=
  substrL p.toList text.toList

/-- The hit test of `test_payloads_on_url` (src lines 515-516): the raw
payload, or its `unquote_plus` form, occurs in the response body. -/
def reflects (p text : String) : Bool :=
  strContains text p || strContains text (unquote_plus p)

/-- The reflection predicate as the specification words it: the raw payload
string or its percent-decoded form appears verbatim in the body.  Written
from the spec for comparison with `reflects` above. -/
def reflects_specPD (p text : String) : Bool :=
  strContains text p || strContains text (pctDecodeOnly p)

/-! ## Payload injector (spec §4.1) -/

/-- Uppercase hexadecimal digits. -/
def hexDigits : List Char := ['0', '1', '2', '3', '4', '5', '6', '7', '8', '9', 'A', 'B', 'C', 'D', 'E', 'F']

/-- Uppercase hex digit of `n % 16`. -/
def hexUp (n : Nat) : Char := hexDigits.getD (n % 16) '0'

/-- Characters left unescaped by `urllib.parse.quote` with its default
`safe='/'`: alphanumerics, `_`, `.`, `-`, `~` and `/`. -/
def isSafeChar (c : Char) : Bool :=
  c.isAlphanum || c = '_' || c = '.' || c = '-' || c = '~' || c = '/'

/-- Percent-encode one character (ASCII model of `urllib.parse.quote`). -/
def quoteChar (c : Char) : List Char :=
  if isSafeChar c then [c] else ['%', hexUp (c.toNat / 16), hexUp (c.toNat % 16)]

/-- Percent-encode a payload, character by character. -/
def quoteL (pl : List Char) : List Char := (pl.map quoteChar).flatten

/-- Split a character list at the first `?`, returning the part before it
(the base, which therefore contains no `?`) and the part after it
(the query string), or `none` when there is no `?`. -/
def splitAtQm : List Char → Option (List Char × List Char)
  | [] => none
  | c :: cs =>
    if c = '?' then some ([], cs)
    else (splitAtQm cs).map (fun bq => (c :: bq.1, bq.2))

/-- Prepend a character to the first piece of a split result. -/
def consHead (c : Char) : List (List Char) → List (List Char)
  | s :: rest => (c :: s) :: rest
  | [] => [[c]]

/-- Split a query string on `&` (Python `query.split('&')`); the result is
always non-empty. -/
def splitOnAmp : List Char → List (List Char)
  | [] => [[]]
  | c :: cs => if c = '&' then [] :: splitOnAmp cs else consHead c (splitOnAmp cs)

/-- Rejoin query segments with `&` (Python `'&'.join(...)`). -/
def joinAmp : List (List Char) → List Char
  | [] => []
  | [s] => s
  | s :: rest => s ++ '&' :: joinAmp rest

/-- The `key` part of a `key[=value]` query segment (Python
`seg.split('=')[0]`). -/
def keyOfL (s : List Char) : List Char := s.takeWhile (fun c => !(c = '=' : Bool))

/-- Modelled from the spec: `inject_payload` is called by
`test_payloads_on_url` (src line 511) but its definition is not under
`src/`.  Spec §4.1: if the URL has no query component the URL is returned
unchanged; otherwise the query string is split on `&` and every
`key[=value]` segment is replaced by `key=` followed by the percent-encoded
payload, preserving key order and all keys. -/
def inject_payloadL (u pl : List Char) : List Char :=
  match splitAtQm u with
  | none => u
  | some (base, q) =>
    if q.isEmpty then u
    else base ++ '?' :: joinAmp ((splitOnAmp q).map (fun s => keyOfL s ++ '=' :: quoteL pl))

/-- String wrapper around `inject_payloadL`. -/
def inject_payload (url payload : String) : String :=
  String.mk (inject_payloadL url.toList payload.toList)

/-- The query string of a URL (characters after the first `?`), `[]` if none. -/
def queryOfL (u : List Char) : List Char :=
  match splitAtQm u with
  | none => []
  | some bq => bq.2

/-- The URL has a non-empty query component (Python truthiness of
`urlparse(url).query`). -/
def hasQueryB (url : String) : Bool := !(queryOfL url.toList).isEmpty

/-- The `key[=value]` segments of a URL's query string. -/
def querySegsOf (url : String) : List (List Char) :=
  match splitAtQm url.toList with
  | none => []
  | some bq => splitOnAmp bq.2

/-! ## Host extraction (`urllib.parse.urlparse(url).netloc`, src line 532-533) -/

/-- The characters after the `://` scheme separator, if present. -/
def afterSchemeSep : List Char → Option (List Char)
  | ':' :: '/' :: '/' :: rest => some rest
  | _ :: rest => afterSchemeSep rest
  | [] => none

/-- The network location of a URL: the characters between `://` and the next
`/`, `?` or `#` (model of `urlparse(url).netloc` for absolute
`scheme://host/...` URLs, the shape this scanner feeds it). -/
def netloc (url : String) : String :=
  match afterSchemeSep url.toList with
  | some r => String.mk (r.takeWhile (fun c => !(c = '/' || c = '?' || c = '#')))
  | none => ""

/-! ## Prober and per-candidate driver loop (src lines 502-518) -/

/-- Outcome of one outbound GET: a response body, or a transport failure
(timeout, connection refused, TLS failure, malformed response — anything
the `except Exception` of `fetch_text` would catch). -/
inductive Outcome where
  | ok (body : String)
  | fail
deriving DecidableEq

/-- The scan's environment: the network as an oracle from request URL to
outcome, and the response time of each request (an abstract duration, used
by the timed request model; units are microseconds). -/
structure Env where
  net : String → Outcome
  rt : String → Nat

/-- `fetch_text` (src lines 502-507): one GET for the URL; the body (with
`None` coerced to the empty string by `r.text or ""`) on success, `none`
on any exception.  The constant `timeout=REQUEST_TIMEOUT` argument is not
modelled. -/
def fetch_text (env : Env) (url : String) : Option String :=
  match env.net url with
  | Outcome.ok body => some body
  | Outcome.fail => none

/-- `test_payloads_on_url` (src lines 509-518): iterate the payloads in
order; derive the probe URL, fetch it, skip on a `None` body, and return
the first `(probe_url, payload, body)` whose body reflects the payload. -/
def test_payloads_on_url (env : Env) (url : String) : List String → Option (String × String × String)
  | [] => none
  | p :: ps =>
    match fetch_text env (inject_payload url p) with
    | none => test_payloads_on_url env url ps
    | some text =>
      if reflects p text then some (inject_payload url p, p, text)
      else test_payloads_on_url env url ps

/-- The sequence of probe URLs actually requested by the
`test_payloads_on_url` loop: one GET per tried payload, stopping right
after the first hit. -/
def probeTrace (env : Env) (url : String) : List String → List String
  | [] => []
  | p :: ps =>
    inject_payload url p ::
      match fetch_text env (inject_payload url p) with
      | none => probeTrace env url ps
      | some text => if reflects p text then [] else probeTrace env url ps

/-- The body witnessing a hit of payload `p` against `url`, if any: `none`
both when the fetch failed and when the body does not reflect the payload
(the two cases the driver treats identically). -/
def hitBody (env : Env) (url p : String) : Option String :=
  match fetch_text env (inject_payload url p) with
  | none => none
  | some text => if reflects p text then some text else none

/-- The probe URL of the first smoke hit for a candidate URL, if any. -/
def hitProbe (env : Env) (url : String) (smoke : List String) : Option String :=
  (test_payloads_on_url env url smoke).map (fun r => r.1)

/-- `SMOKE_PAYLOAD_COUNT` (src line 39). -/
def SMOKE_PAYLOAD_COUNT : Nat := 30

/-- `main` (src lines 629-630): the smoke payload list is the first
`SMOKE_PAYLOAD_COUNT` entries of the full payload list, and is the only
payload list handed to `run_quick_scan`. -/
def smoke_payloads (full : List String) : List String := full.take SMOKE_PAYLOAD_COUNT

/-- The findings `worker_job_quick` (src lines 538-556) emits for one
candidate URL: the single `(probe_url, payload)` appended to the live
dashboard on a hit, nothing otherwise. -/
def worker_emits (env : Env) (url : String) (smoke : List String) : List (String × String) :=
  match test_payloads_on_url env url smoke with
  | some (tu, p, _) => [(tu, p)]
  | none => []

/-! ## Timed request model for rate spacing (src lines 531-538 and 509-518)

`worker_job_quick` awaits the per-host gate and then the global gate once,
before its first request; the payload loop that follows issues its GETs
back to back, each starting when the previous response has arrived. -/

/-- `RATE_LIMIT_PER_HOST` (src line 42), 0.02 s, in microseconds. -/
def RATE_LIMIT_PER_HOST_US : Nat := 20000

/-- `GlobalRateLimiter(400)` (src line 568): 400 requests per second, i.e.
a 2500 µs minimum global interval. -/
def GLOBAL_INTERVAL_US : Nat := 2500

/-- State of the two rate gates: per-host last-grant stamps (created lazily
on first use) and the single global last-grant stamp. -/
structure GateSt where
  hostLast : List (String × Nat)
  globalLast : Option Nat

/-- Fresh gate state at scan start. -/
def gateInit : GateSt := { hostLast := [], globalLast := none }

/-- Modelled from the spec: `HostRateLimiter` is constructed at src line 567
and awaited at src line 534, but its class is not under `src/`.  Spec
§4.2: under the lock, compute the elapsed time since this host's last
grant; if below the minimum interval suspend for the remainder; stamp the
grant time; hosts are created lazily with no delay on first use.  Returns
the grant time (the moment the caller resumes) and the new state. -/
def hostWait (interval : Nat) (st : GateSt) (now : Nat) (host : String) : Nat × GateSt :=
  match st.hostLast.lookup host with
  | none => (now, { st with hostLast := (host, now) :: st.hostLast })
  | some t =>
    let g := max now (t + interval)
    (g, { st with hostLast := (host, g) :: st.hostLast })

/-- Modelled from the spec: `GlobalRateLimiter` is constructed at src line
568 and awaited at src line 535, but its class is not under `src/`.  Spec
§4.2: the same algorithm as the per-host gate over one shared stamp. -/
def globalWait (interval : Nat) (st : GateSt) (now : Nat) : Nat × GateSt :=
  match st.globalLast with
  | none => (now, { st with globalLast := some now })
  | some t =>
    let g := max now (t + interval)
    (g, { st with globalLast := some g })

/-- The timed request sequence of the `test_payloads_on_url` loop: the GET
for each tried payload is issued at time `t`, its response arrives after
`env.rt` of the probe URL, and the next GET is issued immediately at that
moment; the loop still stops at the first hit. -/
def probeTimes (env : Env) (url : String) (t : Nat) : List String → List (String × Nat)
  | [] => []
  | p :: ps =>
    (inject_payload url p, t) ::
      match fetch_text env (inject_payload url p) with
      | none => probeTimes env url (t + env.rt (inject_payload url p)) ps
      | some text =>
        if reflects p text then []
        else probeTimes env url (t + env.rt (inject_payload url p)) ps

/-- `worker_job_quick` (src lines 531-538), timed view: await the host gate,
then the global gate, then run the payload loop from the global grant
time.  Returns the timed GET sequence and the gate state left behind. -/
def worker_timed (hostI globalI : Nat) (env : Env) (st : GateSt) (t0 : Nat) (url : String) (ps : List String) : List (String × Nat) × GateSt :=
  let hg := hostWait hostI st t0 (netloc url)
  let gg := globalWait globalI hg.2 hg.1
  (probeTimes env url gg.1 ps, gg.2)

/-- Claim C2's per-host spacing property over a timed request sequence:
adjacent requests to the same host are at least `interval` apart. -/
def hostSpaced (interval : Nat) (tr : List (String × Nat)) : Prop :=
  ∀ i : Fin tr.length, ∀ j : Fin tr.length, (i : Nat) + 1 = (j : Nat) →
    netloc (tr.get i).1 = netloc (tr.get j).1 →
    (tr.get i).2 + interval ≤ (tr.get j).2

/-- Claim C2's global spacing property: adjacent requests (to any hosts)
are at least `interval` apart. -/
def globalSpaced (interval : Nat) (tr : List (String × Nat)) : Prop :=
  ∀ i : Fin tr.length, ∀ j : Fin tr.length, (i : Nat) + 1 = (j : Nat) →
    (tr.get i).2 + interval ≤ (tr.get j).2

instance (interval : Nat) (tr : List (String × Nat)) : Decidable (hostSpaced interval tr) := by
  unfold hostSpaced; infer_instance

instance (interval : Nat) (tr : List (String × Nat)) : Decidable (globalSpaced interval tr) := by
  unfold globalSpaced; infer_instance

/-- Each request after the first in a timed sequence is issued exactly when
the previous response arrives: the gap to the previous request equals that
request's response time, with no added rate-gate interval. -/
def adjGapsEq (env : Env) : List (String × Nat) → Prop
  | x :: y :: rest => y.2 = x.2 + env.rt x.1 ∧ adjGapsEq env (y :: rest)
  | _ => True

/-! ## Filesystem model: dashboard and evidence output (src lines 471-494, 538-556, 560-581) -/

/-- Abstract content of an output file: the full dashboard template written
by `write_dashboard`, a `receiveReport` snippet appended by
`append_report_snippet`, or an evidence body written by
`worker_job_quick`. -/
inductive Entry where
  | template
  | snippet (url payload status : String)
  | evidence (payload body : String)
deriving DecidableEq

/-- The filesystem as a map from paths to file contents. -/
def FS : Type := String → List Entry

/-- The filesystem before anything of this run is written; paths not yet
written hold no entries. -/
def emptyFS : FS := fun _ => []

/-- Open a path in truncating `'w'` mode and write `v`: previous content of
that path is discarded. -/
def fsWrite (fs : FS) (p : String) (v : List Entry) : FS :=
  fun q => if q = p then v else fs q

/-- Open a path in append `'a'` mode and write one more entry. -/
def fsAppend (fs : FS) (p : String) (e : Entry) : FS :=
  fun q => if q = p then fs q ++ [e] else fs q

/-- `os.path.join(outdir, filename)` for the dashboard file. -/
def dashPath (outdir filename : String) : String := outdir ++ "/" ++ filename

/-- Modelled from the spec: `ensure_dir` (called at src lines 472, 544, 561)
is not under `src/`; it creates the directory if missing and returns the
path, with no effect on the file map. -/
def ensure_dir (p : String) : String := p

/-- Modelled from the spec: `safe_name_for_file` (called at src line 545)
is not under `src/`; spec §6 keys evidence by a filesystem-safe transform
of the probe URL, so it is modelled as the deterministic replacement of
every non-alphanumeric character by `_`. -/
def safe_name_for_file (u : String) : String :=
  String.mk (u.toList.map (fun c => if c.isAlphanum then c else '_'))

/-- The evidence file path for a probe URL
(src lines 544-546: `outdir/evidence/{safe}__resp.html`). -/
def evPath (outdir tu : String) : String :=
  ensure_dir (outdir ++ "/evidence") ++ "/" ++ safe_name_for_file tu ++ "__resp.html"

/-- `write_dashboard` (src lines 471-476): open the output HTML file in
truncating `'w'` mode and write the full dashboard template. -/
def write_dashboard (outdir filename : String) (fs : FS) : FS :=
  fsWrite fs (dashPath outdir filename) [Entry.template]

/-- `append_report_snippet` (src lines 478-494): append one `receiveReport`
script snippet for the finding to the dashboard file (`'a'` mode). -/
def append_report_snippet (outdir filename url payload status : String) (fs : FS) : FS :=
  fsAppend fs (dashPath outdir filename) (Entry.snippet url payload status)

/-- `worker_job_quick` (src lines 531-558), filesystem view: run the smoke
loop; on a hit write the evidence body for the probe URL (truncating
write, `SAVE_EVIDENCE` is `True`) and append a `'vulnerable'` report
snippet to the dashboard. -/
def worker_fs (env : Env) (url : String) (smoke : List String) (outdir filename : String) (fs : FS) : FS :=
  match test_payloads_on_url env url smoke with
  | none => fs
  | some (tu, p, text) =>
    append_report_snippet outdir filename tu p "vulnerable"
      (fsWrite fs (evPath outdir tu) [Entry.evidence p text])

/-- The result of one `run_quick_scan` call: the filesystem it leaves
behind and the Python return value of the coroutine. -/
structure ScanOut where
  fs : FS
  ret : Option (List String)

/-- `run_quick_scan` (src lines 560-581): write the dashboard template,
run one `worker_job_quick` per candidate URL (their completion order is
immaterial to the per-path contents; the fold fixes one order), print a
completion message, and fall off the end — the coroutine has no `return`
statement, so its value is `None`. -/
def run_quick_scan (env : Env) (urls smoke : List String) (outdir filename : String) (fs0 : FS) : ScanOut :=
  { fs := urls.foldl (fun acc u => worker_fs env u smoke outdir filename acc)
      (write_dashboard outdir filename fs0),
    ret := none }

/-- The report snippets this run generates, in driver order. -/
def snipsOf (env : Env) (urls smoke : List String) : List Entry :=
  urls.filterMap (fun u =>
    (test_payloads_on_url env u smoke).map (fun r => Entry.snippet r.1 r.2.1 "vulnerable"))

/-- The probe URLs of this run's findings, in driver order, with
multiplicity. -/
def hitUrls (env : Env) (urls smoke : List String) : List String :=
  urls.filterMap (fun u => hitProbe env u smoke)

/-- Number of report snippets for a given probe URL in a file's content. -/
def countSnips (l : List Entry) (tu : String) : Nat :=
  l.countP (fun e =>
    match e with
    | Entry.snippet u _ _ => u = tu
    | _ => false)

/-- The probe URLs of the report snippets in a file's content, in order. -/
def snipUrls (l : List Entry) : List String :=
  l.filterMap (fun e =>
    match e with
    | Entry.snippet u _ _ => some u
    | _ => none)

/-- Lexicographic comparison of character lists (ASCII order). -/
def lexLeL : List Char → List Char → Bool
  | [], _ => true
  | _ :: _, [] => false
  | x :: xs, y :: ys => if x = y then lexLeL xs ys else decide (x < y)

/-- Lexicographic comparison of strings, used to state "sorted" for the
spec-side return value. -/
def strLeB (a b : String) : Bool := lexLeL a.toList b.toList

/-- Insertion of a string into a `strLeB`-sorted list. -/
def sortInsert (a : String) : List String → List String
  | [] => [a]
  | b :: bs => if strLeB a b then a :: b :: bs else b :: sortInsert a bs

/-- Insertion sort by `strLeB`. -/
def sortStrs : List String → List String
  | [] => []
  | a :: as => sortInsert a (sortStrs as)

/-- Written from the spec (§4.6): the value `run_quick_scan` is claimed to
return — the sorted, deduplicated list of probe URLs that produced at
least one finding. -/
def spec_scan_return (env : Env) (urls smoke : List String) : List String :=
  sortStrs (hitUrls env urls smoke).dedup

/-! ## Concurrency bound (src lines 570-580): `asyncio.Semaphore(concurrency)`
with each driver wrapped in `async with sem`. -/

/-- Phase of one `sem_job` task: waiting to acquire the semaphore, inside
the `async with` block (actively driving its candidate URL), or finished
(semaphore released). -/
inductive Phase where
  | queued
  | active
  | done
deriving DecidableEq

/-- State of the bounded pool: available semaphore permits and the phase of
every task. -/
structure PoolSt where
  avail : Nat
  tasks : List Phase
deriving DecidableEq

/-- Semaphore transitions: a queued task may enter its `async with` block
only when a permit is available (decrementing the count), and an active
task releases its permit when it finishes. -/
inductive PoolStep : PoolSt → PoolSt → Prop where
  | acquire (a : Nat) (l r : List Phase) :
      PoolStep ⟨a + 1, l ++ Phase.queued :: r⟩ ⟨a, l ++ Phase.active :: r⟩
  | release (a : Nat) (l r : List Phase) :
      PoolStep ⟨a, l ++ Phase.active :: r⟩ ⟨a + 1, l ++ Phase.done :: r⟩

/-- Initial state of `run_quick_scan`'s task pool: `asyncio.Semaphore n`
full, one task per candidate URL, all queued. -/
def initPool (n k : Nat) : PoolSt := ⟨n, List.replicate k Phase.queued⟩

/-- Number of drivers currently inside their probing work. -/
def activeCount (s : PoolSt) : Nat := s.tasks.countP (fun t => t = Phase.active)

/-- Witness for C5: smoke sequence `[<x>, <y>, <z>]` against an oracle
whose page reflects only `<y>`: exactly the probes for `<x>` and `<y>` are
issued, none for `<z>`. -/
def env5 : Env :=
  { net := fun u => if u = "http://t/c?a=%3Cy%3E" then Outcome.ok "see <y> here" else Outcome.ok "nothing",
    rt := fun _ => 0 }

/-- Witness for C7: an oracle that fails on the probe URL of payload `zz`;
the driver's result and trace advance past `zz` exactly as for a
non-reflecting body. -/
def env7 : Env :=
  { net := fun u => if u = inject_payload "http://t/a?x=1" "zz" then Outcome.fail else Outcome.ok "body text",
    rt := fun _ => 0 }

/-! ## C1: no full-fuzz stage exists in the driver -/

def url1 : String := "http://t/search?q=1"

def fullSet1 : List String := ["<x>", "<y>"]

def env1 : Env :=
  { net := fun u => if u = "http://t/search?q=%3Cx%3E" then Outcome.ok "echo <x> echo" else Outcome.ok "clean page",
    rt := fun _ => 0 }

/-- Witness for C10: a dashboard file still holding a finding from a
previous run is reset to the fresh template plus only this run's finding. -/
def prevFS : FS := fun q =>
  if q = dashPath "out" "dash.html"
  then [Entry.template, Entry.snippet "http://old/a?b=1" "<z>" "vulnerable"]
  else []

/-- C2 counterexample: one candidate URL on host `h.example` with two
payloads and no hit.  The per-host gate and global gate are awaited once,
before the first request; the second probe request to the same host is
issued as soon as the first response arrives (100 µs later), far below both
the 20000 µs per-host minimum interval and the 2500 µs global minimum
interval. -/
def env2 : Env := { net := fun _ => Outcome.ok "nothing here", rt := fun _ => 100 }

def trace2 : List (String × Nat) :=
  (worker_timed RATE_LIMIT_PER_HOST_US GLOBAL_INTERVAL_US env2 gateInit 0
    "http://h.example/a?x=1" ["p1", "p2"]).1

theorem startsWithL_iff (n : List Char) : ∀ h, startsWithL n h = true ↔ ∃ t, n ++ t = h := by
  induction n with
  | nil => intro h; simp [startsWithL]
  | cons a as ih =>
    intro h
    cases h with
    | nil => simp [startsWithL]
    | cons b bs =>
      simp only [startsWithL, Bool.and_eq_true, decide_eq_true_eq, ih bs]
      constructor
      · rintro ⟨rfl, t, rfl⟩; exact ⟨t, rfl⟩
      · rintro ⟨t, ht⟩
        injection ht with h1 h2
        exact ⟨h1, t, h2⟩

theorem substrL_iff (n : List Char) : ∀ h, substrL n h = true ↔ ∃ s t, s ++ n ++ t = h := by
  intro h
  induction h with
  | nil =>
    simp only [substrL, startsWithL_iff]
    constructor
    · rintro ⟨t, ht⟩
      exact ⟨[], t, by simpa using ht⟩
    · rintro ⟨s, t, hst⟩
      have hs : s = [] := by
        cases s with
        | nil => rfl
        | cons x xs => simp at hst
      subst hs
      exact ⟨t, by simpa using hst⟩
  | cons c ct ih =>
    simp only [substrL, Bool.or_eq_true, startsWithL_iff, ih]
    constructor
    · rintro (⟨t, ht⟩ | ⟨s, t, ht⟩)
      · exact ⟨[], t, by simpa using ht⟩
      · exact ⟨c :: s, t, by simp [ht]⟩
    · rintro ⟨s, t, hst⟩
      cases s with
      | nil => exact Or.inl ⟨t, by simpa using hst⟩
      | cons x xs =>
        injection hst with h1 h2
        exact Or.inr ⟨xs, t, h2⟩

/-! ## Helper lemmas about the injector -/

theorem splitAtQm_spec : ∀ u base q, splitAtQm u = some (base, q) →
    ('?' ∉ base ∧ u = base ++ '?' :: q) := by
  intro u
  induction u with
  | nil => intro base q h; simp [splitAtQm] at h
  | cons c cs ih =>
    intro base q h
    by_cases hc : c = '?'
    · subst hc
      simp [splitAtQm] at h
      obtain ⟨rfl, rfl⟩ := h
      simp
    · cases hrec : splitAtQm cs with
      | none => simp [splitAtQm, if_neg hc, hrec] at h
      | some bq =>
        obtain ⟨b, qq⟩ := bq
        simp only [splitAtQm, if_neg hc, hrec, Option.map_some'] at h
        injection h with h'
        injection h' with hb hq
        obtain ⟨h1, h2⟩ := ih b qq hrec
        subst hq
        rw [← hb]
        constructor
        · intro hmem
          rcases List.mem_cons.mp hmem with h' | h'
          · exact hc h'.symm
          · exact h1 h'
        · simp [h2]

theorem splitAtQm_append (base rest : List Char) (h : '?' ∉ base) :
    splitAtQm (base ++ '?' :: rest) = some (base, rest) := by
  induction base with
  | nil => simp [splitAtQm]
  | cons c bs ih =>
    have hc : ¬(c = '?') := fun hcc => h (hcc ▸ List.mem_cons_self c bs)
    have hbs : '?' ∉ bs := fun hm => h (List.mem_cons_of_mem c hm)
    simp [splitAtQm, hc, ih hbs]

theorem consHead_ne_nil (c : Char) (l : List (List Char)) : consHead c l ≠ [] := by
  cases l <;> simp [consHead]

theorem splitOnAmp_ne_nil : ∀ q : List Char, splitOnAmp q ≠ [] := by
  intro q
  induction q with
  | nil => simp [splitOnAmp]
  | cons c cs ih =>
    by_cases hc : c = '&'
    · simp [splitOnAmp, hc]
    · simp only [splitOnAmp, if_neg hc]
      exact consHead_ne_nil c _

theorem splitOnAmp_no_amp : ∀ (q s : List Char), s ∈ splitOnAmp q → '&' ∉ s := by
  intro q
  induction q with
  | nil =>
    intro s hs
    simp [splitOnAmp] at hs
    simp [hs]
  | cons c cs ih =>
    intro s hs
    by_cases hc : c = '&'
    · simp only [splitOnAmp, if_pos hc] at hs
      rcases List.mem_cons.mp hs with rfl | hs'
      · simp
      · exact ih s hs'
    · simp only [splitOnAmp, if_neg hc] at hs
      cases h : splitOnAmp cs with
      | nil => exact absurd h (splitOnAmp_ne_nil cs)
      | cons s0 rest =>
        rw [h] at hs
        simp only [consHead] at hs
        rcases List.mem_cons.mp hs with rfl | hs'
        · intro hmem
          rcases List.mem_cons.mp hmem with h' | h'
          · exact hc h'.symm
          · exact ih s0 (h ▸ List.mem_cons_self s0 rest) h'
        · exact ih s (h ▸ List.mem_cons_of_mem s0 hs')

theorem splitOnAmp_no_amp_id : ∀ s : List Char, '&' ∉ s → splitOnAmp s = [s] := by
  intro s
  induction s with
  | nil => intro _; rfl
  | cons c cs ih =>
    intro h
    have hc : ¬(c = '&') := fun hcc => h (hcc ▸ List.mem_cons_self c cs)
    have hcs : '&' ∉ cs := fun hm => h (List.mem_cons_of_mem c hm)
    simp only [splitOnAmp, if_neg hc, ih hcs]
    rfl

theorem splitOnAmp_append (s t : List Char) (h : '&' ∉ s) :
    splitOnAmp (s ++ '&' :: t) = s :: splitOnAmp t := by
  induction s with
  | nil => simp [splitOnAmp]
  | cons c cs ih =>
    have hc : ¬(c = '&') := fun hcc => h (hcc ▸ List.mem_cons_self c cs)
    have hcs : '&' ∉ cs := fun hm => h (List.mem_cons_of_mem c hm)
    have h2 : splitOnAmp (c :: (cs ++ '&' :: t)) = consHead c (splitOnAmp (cs ++ '&' :: t)) := by
      simp only [splitOnAmp, if_neg hc]
    rw [List.cons_append, h2, ih hcs]
    rfl

theorem joinAmp_split : ∀ segs : List (List Char), segs ≠ [] →
    (∀ s ∈ segs, '&' ∉ s) → splitOnAmp (joinAmp segs) = segs := by
  intro segs
  induction segs with
  | nil => intro h; exact absurd rfl h
  | cons s rest ih =>
    intro _ hall
    cases rest with
    | nil =>
      simp only [joinAmp]
      exact splitOnAmp_no_amp_id s (hall s (List.mem_cons_self s []))
    | cons s2 rest2 =>
      have hs : '&' ∉ s := hall s (List.mem_cons_self s _)
      have hrest : ∀ x ∈ s2 :: rest2, '&' ∉ x := fun x hx => hall x (List.mem_cons_of_mem s hx)
      calc splitOnAmp (joinAmp (s :: s2 :: rest2))
          = splitOnAmp (s ++ '&' :: joinAmp (s2 :: rest2)) := rfl
        _ = s :: splitOnAmp (joinAmp (s2 :: rest2)) := splitOnAmp_append s _ hs
        _ = s :: s2 :: rest2 := by rw [ih (by simp) hrest]

theorem hexUp_ne_amp (n : Nat) : hexUp n ≠ '&' := by
  unfold hexUp
  have h : n % 16 < 16 := Nat.mod_lt _ (by omega)
  set m := n % 16 with hm
  interval_cases m <;> decide

theorem quoteChar_no_amp (c : Char) : ∀ x ∈ quoteChar c, x ≠ '&' := by
  intro x hx
  unfold quoteChar at hx
  by_cases hs : isSafeChar c = true
  · rw [if_pos hs] at hx
    simp at hx
    subst hx
    intro hcc
    rw [hcc] at hs
    exact absurd hs (by decide)
  · rw [if_neg hs] at hx
    simp only [List.mem_cons, List.not_mem_nil, or_false] at hx
    rcases hx with rfl | rfl | rfl
    · decide
    · exact hexUp_ne_amp _
    · exact hexUp_ne_amp _

theorem quoteL_no_amp (pl : List Char) : '&' ∉ quoteL pl := by
  intro hmem
  unfold quoteL at hmem
  rcases List.mem_flatten.mp hmem with ⟨l, hl, hin⟩
  rcases List.mem_map.mp hl with ⟨c, _, rfl⟩
  exact quoteChar_no_amp c '&' hin rfl

theorem keyOfL_no_eq (s : List Char) : '=' ∉ keyOfL s := by
  intro hmem
  have := List.all_takeWhile (l := s) (p := fun c => !(c = '=' : Bool))
  rw [List.all_eq_true] at this
  have h2 := this _ hmem
  simp at h2

theorem keyOfL_subset (s : List Char) : keyOfL s ⊆ s :=
  List.takeWhile_subset _

theorem segs_map_ne_nil (q : List Char) (f : List Char → List Char) :
    (splitOnAmp q).map f ≠ [] := by
  intro hnil
  exact splitOnAmp_ne_nil q (List.map_eq_nil_iff.mp hnil)

theorem segs_map_no_amp (q pl : List Char) :
    ∀ s ∈ (splitOnAmp q).map (fun s => keyOfL s ++ '=' :: quoteL pl), '&' ∉ s := by
  intro s hs hmem
  rcases List.mem_map.mp hs with ⟨s0, hs0, rfl⟩
  rcases List.mem_append.mp hmem with hk | hv
  · exact splitOnAmp_no_amp q s0 hs0 (keyOfL_subset s0 hk)
  · rcases List.mem_cons.mp hv with h' | h'
    · exact absurd h' (by decide)
    · exact quoteL_no_amp pl h'

theorem keyOfL_append_eq (k enc : List Char) (h : '=' ∉ k) :
    keyOfL (k ++ '=' :: enc) = k := by
  induction k with
  | nil => simp [keyOfL]
  | cons c ks ih =>
    have hc : ¬(c = '=') := fun hcc => h (hcc ▸ List.mem_cons_self c ks)
    have hks : '=' ∉ ks := fun hm => h (List.mem_cons_of_mem c hm)
    have hstep : keyOfL ((c :: ks) ++ '=' :: enc) = c :: keyOfL (ks ++ '=' :: enc) := by
      simp [keyOfL, hc]
    rw [hstep, ih hks]

theorem inject_payloadL_none (u pl : List Char) (h : splitAtQm u = none) :
    inject_payloadL u pl = u := by
  simp [inject_payloadL, h]

theorem inject_payloadL_mt (u pl base : List Char) (h : splitAtQm u = some (base, [])) :
    inject_payloadL u pl = u := by
  simp [inject_payloadL, h]

theorem inject_payloadL_some (u pl base q : List Char) (h : splitAtQm u = some (base, q))
    (hq : ¬q.isEmpty = true) :
    inject_payloadL u pl
      = base ++ '?' :: joinAmp ((splitOnAmp q).map (fun s => keyOfL s ++ '=' :: quoteL pl)) := by
  simp [inject_payloadL, h, hq]

theorem queryOfL_none (u : List Char) (h : splitAtQm u = none) : queryOfL u = [] := by
  simp [queryOfL, h]

theorem queryOfL_some (u : List Char) (bq : List Char × List Char) (h : splitAtQm u = some bq) :
    queryOfL u = bq.2 := by
  simp [queryOfL, h]

/-- C4: `inject_payload` is total (it is a Lean function, and identical
inputs trivially yield identical outputs); a URL with no query component is
returned unchanged; a URL with a query component has its query split on `&`
and every `key[=value]` segment rewritten to `key=` followed by the
percent-encoded payload, preserving all keys and their order. -/
theorem claim4_inject (url payload : String) :
    (hasQueryB url = false → inject_payload url payload = url) ∧
    (hasQueryB url = true →
      querySegsOf (inject_payload url payload)
          = (querySegsOf url).map (fun s => keyOfL s ++ '=' :: quoteL payload.toList) ∧
      (querySegsOf (inject_payload url payload)).map keyOfL = (querySegsOf url).map keyOfL) := by
  cases hsp : splitAtQm url.data with
  | none =>
    constructor
    · intro _
      show String.mk (inject_payloadL url.data payload.data) = url
      rw [inject_payloadL_none _ _ hsp]
    · intro h
      exfalso
      have hq0 : queryOfL url.data = [] := queryOfL_none _ hsp
      rw [show hasQueryB url = !(queryOfL url.data).isEmpty from rfl, hq0] at h
      simp at h
  | some bq =>
    obtain ⟨base, q⟩ := bq
    by_cases hq : q.isEmpty = true
    · have hq' : q = [] := List.isEmpty_iff.mp hq
      subst hq'
      constructor
      · intro _
        show String.mk (inject_payloadL url.data payload.data) = url
        rw [inject_payloadL_mt _ _ _ hsp]
      · intro h
        exfalso
        have hq0 : queryOfL url.data = [] := queryOfL_some _ _ hsp
        rw [show hasQueryB url = !(queryOfL url.data).isEmpty from rfl, hq0] at h
        simp at h
    · constructor
      · intro h
        exfalso
        have hq0 : queryOfL url.data = q := queryOfL_some _ _ hsp
        rw [show hasQueryB url = !(queryOfL url.data).isEmpty from rfl, hq0] at h
        simp only [Bool.not_eq_false'] at h
        exact hq h
      · intro _
        have h3 : '?' ∉ base := (splitAtQm_spec url.data base q hsp).1
        have hinj : (inject_payload url payload).data
            = base ++ '?' :: joinAmp ((splitOnAmp q).map (fun s => keyOfL s ++ '=' :: quoteL payload.data)) := by
          show inject_payloadL url.data payload.data = _
          exact inject_payloadL_some _ _ _ _ hsp hq
        have h4 : splitAtQm (inject_payload url payload).data
            = some (base, joinAmp ((splitOnAmp q).map (fun s => keyOfL s ++ '=' :: quoteL payload.data))) := by
          rw [hinj]
          exact splitAtQm_append base _ h3
        have h5 : querySegsOf (inject_payload url payload)
            = (splitOnAmp q).map (fun s => keyOfL s ++ '=' :: quoteL payload.data) := by
          show (match splitAtQm (inject_payload url payload).data with
                | none => []
                | some bq => splitOnAmp bq.2) = _
          rw [h4]
          exact joinAmp_split _ (segs_map_ne_nil q _) (segs_map_no_amp q payload.data)
        have h6 : querySegsOf url = splitOnAmp q := by
          show (match splitAtQm url.data with
                | none => []
                | some bq => splitOnAmp bq.2) = _
          rw [hsp]
        refine ⟨by rw [h5, h6]; rfl, ?_⟩
        rw [h5, h6, List.map_map]
        apply List.map_congr_left
        intro s0 _
        exact keyOfL_append_eq (keyOfL s0) (quoteL payload.data) (keyOfL_no_eq s0)

/-- Witness for C4 at a concrete parameterized URL: the query branch of
`claim4_inject` evaluated at `http://t/a?x=1&y` with payload `<s>`. -/
theorem claim4_inject_w :
    hasQueryB "http://t/a?x=1&y" = true ∧
    querySegsOf (inject_payload "http://t/a?x=1&y" "<s>")
        = (querySegsOf "http://t/a?x=1&y").map (fun s => keyOfL s ++ '=' :: quoteL "<s>".toList) :=
  ⟨by decide, ((claim4_inject "http://t/a?x=1&y" "<s>").2 (by decide)).1⟩

/-- C6 counterexample: for payload `a+b` and body `a b`, the code's
`reflects` is true — `unquote_plus` also decodes `+` as a space — while
the claim's "raw payload or its percent-decoded form appears verbatim"
is false: neither `a+b` nor its percent-decoded form (which is `a+b`
itself, as it has no `%XY` escape) occurs in `a b`. -/
theorem claim6_cex : reflects "a+b" "a b" = true ∧ reflects_specPD "a+b" "a b" = false := by
  decide

/-- C6 (amended): `reflects(payload, body)` is true exactly when the raw
payload, or its `unquote_plus` form — percent-decoding applied after every
`+` is first replaced by a space — appears verbatim as a substring of the
body. -/
theorem claim6_reflects (p text : String) :
    reflects p text = true ↔
      (∃ s t, s ++ p.toList ++ t = text.toList) ∨
      (∃ s t, s ++ (unquote_plus p).toList ++ t = text.toList) := by
  simp [reflects, strContains, substrL_iff]

theorem miss_step (env : Env) (url p : String) (ps : List String)
    (h : hitBody env url p = none) :
    test_payloads_on_url env url (p :: ps) = test_payloads_on_url env url ps ∧
    probeTrace env url (p :: ps) = inject_payload url p :: probeTrace env url ps := by
  cases hf : fetch_text env (inject_payload url p) with
  | none => constructor <;> simp [test_payloads_on_url, probeTrace, hf]
  | some text =>
    simp only [hitBody, hf] at h
    by_cases hr : reflects p text = true
    · simp [hr] at h
    · constructor <;> simp [test_payloads_on_url, probeTrace, hf, hr]

theorem hit_trace (env : Env) (url p : String) (ps : List String)
    (h : (hitBody env url p).isSome = true) :
    probeTrace env url (p :: ps) = [inject_payload url p] := by
  cases hf : fetch_text env (inject_payload url p) with
  | none => simp [hitBody, hf] at h
  | some text =>
    simp only [hitBody, hf] at h
    by_cases hr : reflects p text = true
    · simp [probeTrace, hf, hr]
    · simp [hr] at h

/-- C5: within one stage, payloads are tried strictly in sequence order and
the first payload whose probe reflects short-circuits the stage: when no
payload of the prefix `ps₁` hits and `p` hits, the requests issued are
exactly the probe URLs of `ps₁` followed by `p`'s, in order, and no probe
is issued for any payload of the suffix `ps₂`. -/
theorem claim5_short_circuit (env : Env) (url : String) (ps₁ : List String) (p : String)
    (ps₂ : List String)
    (h₁ : ∀ q ∈ ps₁, hitBody env url q = none)
    (h₂ : (hitBody env url p).isSome = true) :
    probeTrace env url (ps₁ ++ p :: ps₂) = (ps₁ ++ [p]).map (inject_payload url) := by
  induction ps₁ with
  | nil =>
    simp only [List.nil_append, List.map_cons, List.map_nil]
    exact hit_trace env url p ps₂ h₂
  | cons q qs ih =>
    have hq : hitBody env url q = none := h₁ q (List.mem_cons_self q qs)
    have hrest : ∀ r ∈ qs, hitBody env url r = none :=
      fun r hr => h₁ r (List.mem_cons_of_mem q hr)
    have hstep := (miss_step env url q (qs ++ p :: ps₂) hq).2
    rw [List.cons_append, hstep, ih hrest]
    simp

theorem claim5_short_circuit_w :
    probeTrace env5 "http://t/c?a=1" (["<x>"] ++ "<y>" :: ["<z>"])
      = (["<x>"] ++ ["<y>"]).map (inject_payload "http://t/c?a=1") :=
  claim5_short_circuit env5 "http://t/c?a=1" ["<x>"] "<y>" ["<z>"] (by decide) (by decide)

/-- C7: `fetch_text` turns any transport failure into an absent body rather
than an exception (in the embedding, the `Outcome.fail` case of the oracle
maps to `none` and the function is total), and the driver treats an absent
body for payload `p` exactly like a non-reflecting one: the result over
`p :: ps` equals the result over `ps`, and `p` contributes exactly its one
probe request to the trace — no retry. -/
theorem claim7_transport (env : Env) (url p : String) (ps : List String)
    (h : hitBody env url p = none) :
    (∀ u, env.net u = Outcome.fail → fetch_text env u = none) ∧
    test_payloads_on_url env url (p :: ps) = test_payloads_on_url env url ps ∧
    probeTrace env url (p :: ps) = inject_payload url p :: probeTrace env url ps :=
  ⟨fun u hu => by simp [fetch_text, hu],
   (miss_step env url p ps h).1, (miss_step env url p ps h).2⟩

theorem claim7_transport_w :
    (∀ u, env7.net u = Outcome.fail → fetch_text env7 u = none) ∧
    test_payloads_on_url env7 "http://t/a?x=1" ("zz" :: ["qq"])
      = test_payloads_on_url env7 "http://t/a?x=1" ["qq"] ∧
    probeTrace env7 "http://t/a?x=1" ("zz" :: ["qq"])
      = inject_payload "http://t/a?x=1" "zz" :: probeTrace env7 "http://t/a?x=1" ["qq"] :=
  claim7_transport env7 "http://t/a?x=1" "zz" ["qq"] (by decide)

/-- C1 counterexample: a candidate whose smoke pass hits on `<x>` while the
full payload sequence `[<x>, <y>]` is non-empty.  The claim requires the
driver to then run the Prober over the full sequence and emit a second
`stage=full` finding; the code emits exactly one finding for the candidate
(`worker_job_quick` has no full pass at all — `main` passes only
`smoke_payloads full = full.take 30` to `run_quick_scan`) and never issues
the probe for `<y>`. -/
theorem claim1_cex :
    (hitBody env1 url1 "<x>").isSome = true ∧
    fullSet1 ≠ [] ∧
    (worker_emits env1 url1 (smoke_payloads fullSet1)).length = 1 ∧
    inject_payload url1 "<y>" ∉ probeTrace env1 url1 (smoke_payloads fullSet1) := by
  decide

/-- C1 (amended): the driver runs only the smoke pass: per candidate URL it
emits at most one (untagged) finding, and every probe URL it requests is
derived from a smoke payload — no second, full-stage pass ever runs. -/
theorem claim1_smoke_only (env : Env) (url : String) (smoke : List String) :
    (worker_emits env url smoke).length ≤ 1 ∧
    probeTrace env url smoke ⊆ smoke.map (inject_payload url) := by
  constructor
  · unfold worker_emits
    cases test_payloads_on_url env url smoke with
    | none => simp
    | some r =>
      obtain ⟨tu, p, text⟩ := r
      simp
  · induction smoke with
    | nil =>
      intro v hv
      simp [probeTrace] at hv
    | cons p ps ih =>
      intro v hv
      simp only [probeTrace] at hv
      rcases List.mem_cons.mp hv with rfl | hv'
      · simp
      · have hv2 : v ∈ probeTrace env url ps := by
          cases hf : fetch_text env (inject_payload url p) with
          | none => simpa [hf] using hv'
          | some text =>
            by_cases hr : reflects p text = true
            · simp [hf, hr] at hv'
            · simpa [hf, hr] using hv'
        simp only [List.map_cons]
        exact List.mem_cons_of_mem _ (ih hv2)

/-! ## Fold lemmas for the orchestrator's filesystem effects -/

theorem worker_fs_dash (env : Env) (u : String) (smoke : List String) (od fn : String) (fs : FS)
    (hsep : ∀ v, hitProbe env u smoke = some v → evPath od v ≠ dashPath od fn) :
    worker_fs env u smoke od fn fs (dashPath od fn)
      = fs (dashPath od fn)
          ++ (match test_payloads_on_url env u smoke with
              | none => []
              | some r => [Entry.snippet r.1 r.2.1 "vulnerable"]) := by
  cases ht : test_payloads_on_url env u smoke with
  | none => simp [worker_fs, ht]
  | some r =>
    obtain ⟨tu, p, text⟩ := r
    have hne : evPath od tu ≠ dashPath od fn := hsep tu (by simp [hitProbe, ht])
    simp [worker_fs, ht, append_report_snippet, fsAppend, fsWrite, hne, Ne.symm hne]

theorem fold_dash (env : Env) (smoke : List String) (od fn : String) :
    ∀ (urls : List String) (fs : FS),
      (∀ v ∈ hitUrls env urls smoke, evPath od v ≠ dashPath od fn) →
      (urls.foldl (fun acc u => worker_fs env u smoke od fn acc) fs) (dashPath od fn)
        = fs (dashPath od fn) ++ snipsOf env urls smoke := by
  intro urls
  induction urls with
  | nil =>
    intro fs _
    simp [snipsOf]
  | cons u us ih =>
    intro fs hsep
    have hsep_u : ∀ v, hitProbe env u smoke = some v → evPath od v ≠ dashPath od fn := by
      intro v hv
      exact hsep v (by simp [hitUrls, List.filterMap_cons, hv])
    have hsep_us : ∀ v ∈ hitUrls env us smoke, evPath od v ≠ dashPath od fn := by
      intro v hv
      apply hsep v
      simp only [hitUrls, List.filterMap_cons]
      cases hitProbe env u smoke <;> simp [hitUrls] at hv ⊢ <;> simp [hv]
    rw [List.foldl_cons, ih (worker_fs env u smoke od fn fs) hsep_us,
        worker_fs_dash env u smoke od fn fs hsep_u]
    cases ht : test_payloads_on_url env u smoke with
    | none => simp [snipsOf, List.filterMap_cons, ht]
    | some r => simp [snipsOf, List.filterMap_cons, ht]

theorem fold_other (env : Env) (smoke : List String) (od fn : String) :
    ∀ (urls : List String) (fs : FS),
      (∀ q, q ≠ dashPath od fn → (fs q).length ≤ 1) →
      ∀ q, q ≠ dashPath od fn →
        ((urls.foldl (fun acc u => worker_fs env u smoke od fn acc) fs) q).length ≤ 1 := by
  intro urls
  induction urls with
  | nil => intro fs h q hq; exact h q hq
  | cons u us ih =>
    intro fs h q hq
    rw [List.foldl_cons]
    apply ih (worker_fs env u smoke od fn fs) _ q hq
    intro q' hq'
    cases ht : test_payloads_on_url env u smoke with
    | none => simp only [worker_fs, ht]; exact h q' hq'
    | some r =>
      obtain ⟨tu, p, text⟩ := r
      simp only [worker_fs, ht, append_report_snippet, fsAppend, fsWrite]
      rw [if_neg hq']
      by_cases he : q' = evPath od tu
      · simp [he]
      · rw [if_neg he]
        exact h q' hq'

theorem countSnips_snipsOf (env : Env) (smoke : List String) (tu : String) :
    ∀ urls, countSnips (snipsOf env urls smoke) tu
      = urls.countP (fun u => decide (hitProbe env u smoke = some tu)) := by
  intro urls
  induction urls with
  | nil => rfl
  | cons u us ih =>
    cases ht : test_payloads_on_url env u smoke with
    | none =>
      have h1 : snipsOf env (u :: us) smoke = snipsOf env us smoke := by
        simp [snipsOf, List.filterMap_cons, ht]
      have h2 : hitProbe env u smoke = none := by simp [hitProbe, ht]
      rw [h1, ih, List.countP_cons, h2]
      simp
    | some r =>
      obtain ⟨tu0, p, text⟩ := r
      have h1 : snipsOf env (u :: us) smoke
          = Entry.snippet tu0 p "vulnerable" :: snipsOf env us smoke := by
        simp [snipsOf, List.filterMap_cons, ht]
      have h2 : hitProbe env u smoke = some tu0 := by simp [hitProbe, ht]
      rw [h1, List.countP_cons, countSnips, List.countP_cons, h2]
      have h3 : countSnips (snipsOf env us smoke) tu
          = List.countP (fun u => decide (hitProbe env u smoke = some tu)) us := ih
      rw [countSnips] at h3
      rw [h3]
      simp

theorem snipUrls_snipsOf (env : Env) (smoke : List String) :
    ∀ urls, snipUrls (snipsOf env urls smoke) = hitUrls env urls smoke := by
  intro urls
  induction urls with
  | nil => rfl
  | cons u us ih =>
    cases ht : test_payloads_on_url env u smoke with
    | none =>
      have h1 : snipsOf env (u :: us) smoke = snipsOf env us smoke := by
        simp [snipsOf, List.filterMap_cons, ht]
      have h2 : hitUrls env (u :: us) smoke = hitUrls env us smoke := by
        simp [hitUrls, List.filterMap_cons, hitProbe, ht]
      rw [h1, h2, ih]
    | some r =>
      obtain ⟨tu0, p, text⟩ := r
      have h1 : snipsOf env (u :: us) smoke
          = Entry.snippet tu0 p "vulnerable" :: snipsOf env us smoke := by
        simp [snipsOf, List.filterMap_cons, ht]
      have h2 : hitUrls env (u :: us) smoke = tu0 :: hitUrls env us smoke := by
        simp [hitUrls, List.filterMap_cons, hitProbe, ht]
      rw [h1, h2, snipUrls, List.filterMap_cons]
      simp only []
      rw [snipUrls] at ih
      rw [ih]

/-- C10: every `run_quick_scan` invocation first rewrites the output HTML
file with the full dashboard template in truncating mode, before any
finding is appended: whatever the file held before the run (`fs0` is
arbitrary), afterwards it holds exactly the fresh template followed by this
run's snippets — findings recorded by a previous run are erased. -/
theorem claim10_fresh_dashboard (env : Env) (urls smoke : List String) (od fn : String) (fs0 : FS)
    (hsep : ∀ v ∈ hitUrls env urls smoke, evPath od v ≠ dashPath od fn) :
    (run_quick_scan env urls smoke od fn fs0).fs (dashPath od fn)
      = Entry.template :: snipsOf env urls smoke := by
  show (urls.foldl (fun acc u => worker_fs env u smoke od fn acc)
      (write_dashboard od fn fs0)) (dashPath od fn) = _
  rw [fold_dash env smoke od fn urls _ hsep]
  have h0 : (write_dashboard od fn fs0) (dashPath od fn) = [Entry.template] := by
    simp [write_dashboard, fsWrite]
  rw [h0]
  rfl

theorem claim10_fresh_dashboard_w :
    (run_quick_scan env1 [url1] ["<x>"] "out" "dash.html" prevFS).fs (dashPath "out" "dash.html")
      = Entry.template :: snipsOf env1 [url1] ["<x>"] :=
  claim10_fresh_dashboard env1 [url1] ["<x>"] "out" "dash.html" prevFS (by decide)

/-- C8 counterexample: on a run with one finding, `run_quick_scan` does not
return the sorted deduplicated probe-URL set — that set is the non-empty
`["http://t/search?q=%3Cx%3E"]`, while the coroutine has no `return`
statement and yields `None`. -/
theorem claim8_cex :
    (run_quick_scan env1 [url1] ["<x>"] "out" "dash.html" emptyFS).ret
        ≠ some (spec_scan_return env1 [url1] ["<x>"]) ∧
    spec_scan_return env1 [url1] ["<x>"] = ["http://t/search?q=%3Cx%3E"] := by
  constructor
  · intro h
    exact Option.noConfusion h
  · decide

/-- C8 (amended): after all drivers finish, `run_quick_scan` returns no
value at all (`None`); the probe URLs that produced a finding are recorded
only as the dashboard's appended snippets, in driver order with
multiplicity — no sorted, deduplicated set is produced or returned. -/
theorem claim8_no_return (env : Env) (urls smoke : List String) (od fn : String) (fs0 : FS)
    (hsep : ∀ v ∈ hitUrls env urls smoke, evPath od v ≠ dashPath od fn) :
    (run_quick_scan env urls smoke od fn fs0).ret = none ∧
    snipUrls ((run_quick_scan env urls smoke od fn fs0).fs (dashPath od fn))
        = hitUrls env urls smoke := by
  refine ⟨rfl, ?_⟩
  show snipUrls ((urls.foldl (fun acc u => worker_fs env u smoke od fn acc)
      (write_dashboard od fn fs0)) (dashPath od fn)) = _
  rw [fold_dash env smoke od fn urls _ hsep]
  have h0 : (write_dashboard od fn fs0) (dashPath od fn) = [Entry.template] := by
    simp [write_dashboard, fsWrite]
  rw [h0]
  have h1 : snipUrls (Entry.template :: snipsOf env urls smoke)
      = snipUrls (snipsOf env urls smoke) := by
    simp [snipUrls, List.filterMap_cons]
  calc snipUrls ([Entry.template] ++ snipsOf env urls smoke)
      = snipUrls (Entry.template :: snipsOf env urls smoke) := rfl
    _ = snipUrls (snipsOf env urls smoke) := h1
    _ = hitUrls env urls smoke := snipUrls_snipsOf env smoke urls

/-- Witness for C8's amended statement at a concrete one-hit run. -/
theorem claim8_no_return_w :
    (run_quick_scan env1 [url1] ["<x>"] "out" "dash.html" emptyFS).ret = none ∧
    snipUrls ((run_quick_scan env1 [url1] ["<x>"] "out" "dash.html" emptyFS).fs
        (dashPath "out" "dash.html")) = hitUrls env1 [url1] ["<x>"] :=
  claim8_no_return env1 [url1] ["<x>"] "out" "dash.html" emptyFS (by decide)

/-- C3 counterexample: the same candidate URL scanned twice in one run (two
independent discoveries of the same probe URL) leads to two report
snippets for that probe URL being forwarded to the dashboard — not at most
one, as the claim requires. -/
theorem claim3_cex :
    countSnips ((run_quick_scan env1 [url1, url1] ["<x>"] "out" "dash.html" emptyFS).fs
        (dashPath "out" "dash.html")) "http://t/search?q=%3Cx%3E" = 2 := by
  decide

/-- C3 (amended): nothing deduplicates findings — each discovery of a probe
URL forwards one more snippet to the dashboard (the count for `tu` equals
the number of candidate URLs whose first hit is `tu`), while evidence
writes for the same probe URL always target the same file, so at most one
evidence artifact exists per probe URL, rewritten on each rediscovery. -/
theorem claim3_no_dedup (env : Env) (urls smoke : List String) (od fn tu : String)
    (hsep : ∀ v ∈ hitUrls env urls smoke, evPath od v ≠ dashPath od fn)
    (hsep2 : evPath od tu ≠ dashPath od fn) :
    countSnips ((run_quick_scan env urls smoke od fn emptyFS).fs (dashPath od fn)) tu
        = urls.countP (fun u => decide (hitProbe env u smoke = some tu)) ∧
    ((run_quick_scan env urls smoke od fn emptyFS).fs (evPath od tu)).length ≤ 1 := by
  constructor
  · show countSnips ((urls.foldl (fun acc u => worker_fs env u smoke od fn acc)
        (write_dashboard od fn emptyFS)) (dashPath od fn)) tu = _
    rw [fold_dash env smoke od fn urls _ hsep]
    have h0 : (write_dashboard od fn emptyFS) (dashPath od fn) = [Entry.template] := by
      simp [write_dashboard, fsWrite]
    rw [h0]
    have h1 : countSnips ([Entry.template] ++ snipsOf env urls smoke) tu
        = countSnips (snipsOf env urls smoke) tu := by
      simp [countSnips, List.countP_cons]
    rw [h1, countSnips_snipsOf env smoke tu urls]
  · apply fold_other env smoke od fn urls _ _ (evPath od tu) hsep2
    intro q hq
    simp [write_dashboard, fsWrite, emptyFS, hq]

/-- Witness for C3's amended statement: two scans of the same candidate
yield a snippet count of two for its probe URL and a single evidence
artifact. -/
theorem claim3_no_dedup_w :
    countSnips ((run_quick_scan env1 [url1, url1] ["<x>"] "out" "d2.html" emptyFS).fs
        (dashPath "out" "d2.html")) "http://t/search?q=%3Cx%3E"
      = [url1, url1].countP
          (fun u => decide (hitProbe env1 u ["<x>"] = some "http://t/search?q=%3Cx%3E")) ∧
    ((run_quick_scan env1 [url1, url1] ["<x>"] "out" "d2.html" emptyFS).fs
        (evPath "out" "http://t/search?q=%3Cx%3E")).length ≤ 1 :=
  claim3_no_dedup env1 [url1, url1] ["<x>"] "out" "d2.html" "http://t/search?q=%3Cx%3E"
    (by decide) (by decide)

theorem probeTimes_head_time (env : Env) (url : String) (t : Nat) (ps : List String)
    (x : String × Nat) (tl : List (String × Nat))
    (h : probeTimes env url t ps = x :: tl) : x.2 = t := by
  cases ps with
  | nil => simp [probeTimes] at h
  | cons p ps' =>
    simp only [probeTimes] at h
    injection h with h1 _
    rw [← h1]

theorem claim2_cex :
    ¬ (hostSpaced RATE_LIMIT_PER_HOST_US trace2 ∧ globalSpaced GLOBAL_INTERVAL_US trace2) := by
  decide

/-- C2 (amended): within one candidate URL's payload loop, each probe
request after the first is issued exactly when the previous response
arrives — the gap between consecutive requests (same host by construction)
equals the previous request's response time, with no rate-gate interval
added; the gates are only awaited once, before the loop starts. -/
theorem claim2_no_inner_gating (env : Env) (url : String) (t : Nat) (ps : List String) :
    adjGapsEq env (probeTimes env url t ps) := by
  induction ps generalizing t with
  | nil => simp [probeTimes, adjGapsEq]
  | cons p ps' ih =>
    simp only [probeTimes]
    cases hf : fetch_text env (inject_payload url p) with
    | none =>
      cases hr : probeTimes env url (t + env.rt (inject_payload url p)) ps' with
      | nil => simp [adjGapsEq]
      | cons x tl =>
        have hx := probeTimes_head_time env url _ ps' x tl hr
        have iht := ih (t + env.rt (inject_payload url p))
        rw [hr] at iht
        exact ⟨hx, iht⟩
    | some text =>
      by_cases hrefl : reflects p text = true
      · simp [hrefl, adjGapsEq]
      · simp only [hrefl, if_false, Bool.false_eq_true]
        cases hr : probeTimes env url (t + env.rt (inject_payload url p)) ps' with
        | nil => simp [adjGapsEq]
        | cons x tl =>
          have hx := probeTimes_head_time env url _ ps' x tl hr
          have iht := ih (t + env.rt (inject_payload url p))
          rw [hr] at iht
          exact ⟨hx, iht⟩

/-! ## C9: the semaphore bound -/

theorem pool_inv (n k : Nat) :
    ∀ s : PoolSt, Relation.ReflTransGen PoolStep (initPool n k) s →
      s.avail + activeCount s = n := by
  intro s h
  induction h with
  | refl =>
    simp only [initPool, activeCount, List.countP_replicate]
    simp
  | tail _ step ih =>
    cases step with
    | acquire a l r =>
      simp only [activeCount, List.countP_append, List.countP_cons] at ih ⊢
      simp only [decide_eq_true_eq] at ih ⊢
      simp at ih ⊢
      omega
    | release a l r =>
      simp only [activeCount, List.countP_append, List.countP_cons] at ih ⊢
      simp only [decide_eq_true_eq] at ih ⊢
      simp at ih ⊢
      omega

/-- C9: in every state reachable from the start of a scan with concurrency
bound `n` over `k` candidate URLs, the number of drivers inside their
probing work never exceeds `n` — `asyncio.Semaphore n` admits a queued
`sem_job` only while a permit is available. -/
theorem claim9_bound (n k : Nat) (s : PoolSt)
    (h : Relation.ReflTransGen PoolStep (initPool n k) s) :
    activeCount s ≤ n := by
  have := pool_inv n k s h
  omega

/-- Witness for C9: the spec's concrete scenario — 50 candidate URLs with
concurrency bound 5; after the first driver is admitted, at most 5 are
active. -/
theorem claim9_bound_w :
    activeCount ⟨4, [] ++ Phase.active :: List.replicate 49 Phase.queued⟩ ≤ 5 :=
  claim9_bound 5 50 _
    (Relation.ReflTransGen.single
      (show PoolStep (initPool 5 50) ⟨4, [] ++ Phase.active :: List.replicate 49 Phase.queued⟩ from
        PoolStep.acquire 4 [] (List.replicate 49 Phase.queued)))
